import Mathlib

/-!
Verification of the umcp-sse-connector aggregation gateway.

This file gives a shallow embedding, over `List Char` strings, of the
aggregation/multiplexing core implemented in
`src/meta-dynamic-server-cache.ts` (the cached meta server), together with
the stdio line-framing transport of `src/stdio/index.ts` and the boot-time
connection loop of `MetaDynamicServerCache.start`.

Strings are modelled as `List Char`.  The JavaScript expression
`s.split("://")` is modelled by `splitDelim`, which scans left to right and
cuts at every (non-overlapping, greedily matched) occurrence of the
three-character delimiter `"://"` — exactly the semantics of
`String.prototype.split` with a plain-string separator.
-/

/-- The alias delimiter `"://"` used by the cached server when it relabels
tool names and resource uris (`` `${alias}://${r.uri}` ``). -/
def delim : List Char := [':', '/', '/']

/-- Helper used by the splitting functions: prepend a character to the first
component of a split result. -/
def consHead (c : Char) : List (List Char) → List (List Char)
  | [] => [[c]]
  | h :: r => (c :: h) :: r

/-- Model of the JavaScript `raw.split("://")`: scan left to right, cutting
at each greedily matched occurrence of `"://"`.  Lists of length `< 3`
cannot contain the delimiter and become a single component. -/
def splitDelim : List Char → List (List Char)
  | [] => [[]]
  | c :: d :: e :: rest =>
    if c = ':' ∧ d = '/' ∧ e = '/' then [] :: splitDelim rest
    else consHead c (splitDelim (d :: e :: rest))
  | [c] => [[c]]
  | [c, d] => consHead c (splitDelim [d])

/-- Whether a string contains the delimiter `"://"` (the scan mirrors
`splitDelim`'s greedy left-to-right matching positions). -/
def containsDelim : List Char → Bool
  | c :: d :: e :: rest =>
    decide (c = ':' ∧ d = '/' ∧ e = '/') || containsDelim (d :: e :: rest)
  | _ => false

/-- The encoding `` `${alias}://${localId}` `` applied by the
`resources/list` and `tools/list` handlers when they relabel entries. -/
def encodeId (al localId : List Char) : List Char := al ++ delim ++ localId

/-- The decoding `const [alias, path] = raw.split("://")` used by the
`resources/read` and `tools/call` handlers: component 0 of the split, and
component 1 when present (`none` models JavaScript `undefined`). -/
def decodeId (raw : List Char) : List Char × Option (List Char) :=
  match splitDelim raw with
  | [] => ([], none)
  | [a] => (a, none)
  | a :: p :: _ => (a, some p)

/-- JavaScript truthiness of `parts[1]` in
`const [maybeAlias, maybeTool] = params.name.split("://")`: truthy exactly
when the component exists and is non-empty. -/
def jsTruthyStr : Option (List Char) → Bool
  | none => false
  | some [] => false
  | some (_ :: _) => true

/-- Observable outcome of the `tools/call` handler: either the call is
routed to a backend (alias and local tool name), or it throws one of the
three error classes the handler raises. -/
inductive CallOutcome where
  | routed (al tool : List Char)
  | unknownAlias (al : List Char)
  | unknownTool (tool : List Char)
  | ambiguousTool (tool : List Char) (colliding : List (List Char))
  deriving DecidableEq

/-- The `CallToolRequestSchema` handler of the cached server
(`meta-dynamic-server-cache.ts`).  `clients` is the alias key set of
`this.clients` (descriptor insertion order), `toolsCache` models
`this.toolsCache` (`expiry`, `value`), and `freshTools` is the tool list the
fallback `this.server.request({method: "tools/list"})` enumeration would
return when the cache is `null`.  The returned `Bool` records whether that
fallback enumeration was performed. -/
def callToolHandler (clients : List (List Char))
    (toolsCache : Option (Nat × List (List Char)))
    (freshTools : List (List Char)) (name : List Char) : CallOutcome × Bool :=
  let parts := splitDelim name
  let maybeAlias := parts.headD []
  let maybeTool := parts[1]?
  if jsTruthyStr maybeTool then
    let al := maybeAlias
    let tool := maybeTool.getD []
    if clients.contains al then (CallOutcome.routed al tool, false)
    else (CallOutcome.unknownAlias al, false)
  else
    let tool := maybeAlias
    let allTools := match toolsCache with
      | some e => e.2
      | none => freshTools
    let refreshed := toolsCache.isNone
    let hits := allTools.filter (fun nm => List.isSuffixOf (delim ++ tool) nm)
    if hits.length = 1 then
      let al := (splitDelim (hits.headD [])).headD []
      if clients.contains al then (CallOutcome.routed al tool, refreshed)
      else (CallOutcome.unknownAlias al, refreshed)
    else if hits.length = 0 then (CallOutcome.unknownTool tool, refreshed)
    else (CallOutcome.ambiguousTool tool hits, refreshed)

/-- Observable outcome of the `resources/read` handler: either the read is
forwarded to the backend `al` with uri `path` (possibly absent, modelling
JavaScript `undefined`), or the handler throws `Unknown alias`. -/
inductive ReadOutcome where
  | forwarded (al : List Char) (path : Option (List Char))
  | unknownAlias (al : List Char)
  deriving DecidableEq

/-- The `ReadResourceRequestSchema` handler of the cached server:
`const [alias, path] = params.uri.split("://")`, then a client lookup that
throws `Unknown alias` on a miss and otherwise forwards the read. -/
def readResourceHandler (clients : List (List Char)) (uri : List Char) :
    ReadOutcome :=
  let parts := splitDelim uri
  let al := parts.headD []
  let path := parts[1]?
  if clients.contains al then ReadOutcome.forwarded al path
  else ReadOutcome.unknownAlias al

/-- The fan-out loop shared by the `resources/list` and `tools/list`
handlers: `for (const [alias, client] of this.clients) { const res = await
client.request(...); aggregated.push(...res.map(relabel)); }`.  Each
backend is a pair of its alias and the reply its query produces
(`Except.error` models a rejected request, which the un-guarded `await`
re-throws).  Returns the aggregation outcome together with the number of
backends actually queried. -/
def fanOutLists {ε : Type} :
    List (List Char × Except ε (List (List Char))) →
      Except ε (List (List Char)) × Nat
  | [] => (Except.ok [], 0)
  | (al, res) :: rest =>
    match res with
    | Except.error e => (Except.error e, 1)
    | Except.ok items =>
      match fanOutLists rest with
      | (Except.error e, n) => (Except.error e, n + 1)
      | (Except.ok tail, n) =>
        (Except.ok (items.map (fun i => encodeId al i) ++ tail), n + 1)

/-- The cached enumeration handler (`tools/list`, and identically
`resources/list`): return the cached value while `expiry > now`, otherwise
run the fan-out and overwrite the cache with expiry `now + ttl`; a fan-out
exception propagates and leaves the cache unchanged.  Result: the reply,
the cache state afterwards, and the number of backends queried. -/
def listToolsHandler {ε : Type} (now ttl : Nat)
    (cache : Option (Nat × List (List Char)))
    (backends : List (List Char × Except ε (List (List Char)))) :
    Except ε (List (List Char)) × Option (Nat × List (List Char)) × Nat :=
  match cache with
  | some e =>
    if e.1 > now then (Except.ok e.2, some e, 0)
    else
      match fanOutLists backends with
      | (Except.error er, n) => (Except.error er, some e, n)
      | (Except.ok agg, n) => (Except.ok agg, some (now + ttl, agg), n)
  | none =>
    match fanOutLists backends with
    | (Except.error er, n) => (Except.error er, none, n)
    | (Except.ok agg, n) => (Except.ok agg, some (now + ttl, agg), n)

/-- The boot-time connection loop of `MetaDynamicServerCache.start`:
`for (const cfg of this.remotes) { ... await client.connect(transport);
this.clients.set(cfg.name, client); }`.  Each descriptor is a pair of its
alias and its dial result.  Returns the aliases registered in
`this.clients` together with the first dial error, if any (which aborts
`start`). -/
def connectAll {ε : Type} :
    List (List Char × Except ε Unit) → List (List Char) × Option ε
  | [] => ([], none)
  | (al, res) :: rest =>
    match res with
    | Except.error e => ([], some e)
    | Except.ok _ =>
      let m := connectAll rest
      (al :: m.1, m.2)

/-- Spec-side formulation used to state the bare-name resolution claim: the
snapshot entries whose local part equals the bare name. -/
def localMatches (snapshot : List (List Char × List Char)) (t : List Char) :
    List (List Char × List Char) :=
  snapshot.filter (fun p => p.2 == t)

/-- One sub-operation event of a dispatch loop: the request is issued, or
its completion is awaited. -/
inductive DispatchEv where
  | issued (al : List Char)
  | awaited (al : List Char)
  deriving DecidableEq

/-- Event trace of the sequential dispatch loops of the cached server (the
`for ... { const res = await client.request(...) }` fan-out loops and the
`for ... { await client.connect(...) }` boot loop): each iteration issues
its sub-operation and awaits it before the next iteration begins. -/
def seqDispatchTrace (aliases : List (List Char)) : List DispatchEv :=
  aliases.flatMap (fun a => [DispatchEv.issued a, DispatchEv.awaited a])

/-- Whether an event is an await. -/
def isAwaitedEv : DispatchEv → Bool
  | DispatchEv.awaited _ => true
  | DispatchEv.issued _ => false

/-- Spec-side predicate: every issue in the trace happens before every
await (the claimed issue-all-then-await-all dispatch shape). -/
def issuesFirst : List DispatchEv → Bool
  | [] => true
  | DispatchEv.issued _ :: rest => issuesFirst rest
  | DispatchEv.awaited _ :: rest => rest.all isAwaitedEv

/-- ASCII whitespace test modelling `String.prototype.trim`'s whitespace
class (restricted to the ASCII characters that can occur here). -/
def jsWhitespace (c : Char) : Bool :=
  decide (c = ' ' ∨ c = '\t' ∨ c = '\n' ∨ c = '\r' ∨ c = '\x0b' ∨ c = '\x0c')

/-- Model of `line.trim()`: strip whitespace from both ends. -/
def jsTrim (s : List Char) : List Char :=
  ((s.dropWhile jsWhitespace).reverse.dropWhile jsWhitespace).reverse

/-- Per-line handling of the stdout data handler: skip empty (falsy)
trimmed lines, then `JSON.parse` inside `try`, discarding failures.  The
parser is abstract: `parse` returns `none` where `JSON.parse` would throw. -/
def handleLine {μ : Type} (parse : List Char → Option μ) (line : List Char) :
    Option μ :=
  let t := jsTrim line
  if t = [] then none else parse t

/-- The `while ((idx = this.buffer.indexOf("\n")) >= 0)` drain loop of
`StdIOClientTransport`: repeatedly split the buffer at the first newline,
handle the line, and continue with the remainder; the final
newline-free remainder stays in the buffer. -/
def drainBuffer {μ : Type} (parse : List Char → Option μ)
    (buffer : List Char) : List μ × List Char :=
  if h : buffer.any (fun c => c == '\n') then
    let line := buffer.takeWhile (fun c => !(c == '\n'))
    let rest := (buffer.dropWhile (fun c => !(c == '\n'))).drop 1
    let out := drainBuffer parse rest
    match handleLine parse line with
    | some m => (m :: out.1, out.2)
    | none => out
  else ([], buffer)
termination_by buffer.length
decreasing_by
  have h1 : buffer.dropWhile (fun c => !(c == '\n')) ≠ [] := by
    rw [Ne, List.dropWhile_eq_nil_iff]
    intro hall
    rw [List.any_eq_true] at h
    obtain ⟨c, hc, he⟩ := h
    have := hall c hc
    simp at he this
    exact this he
  have h2 : (buffer.dropWhile (fun c => !(c == '\n'))).length ≤ buffer.length :=
    (List.dropWhile_sublist _).length_le
  have h3 : 0 < (buffer.dropWhile (fun c => !(c == '\n'))).length :=
    List.length_pos.mpr h1
  simp only [List.length_drop]
  omega

/-- One `stdout.on("data", ...)` invocation: append the chunk to the
buffer, then drain complete lines, appending delivered messages. -/
def processChunk {μ : Type} (parse : List Char → Option μ)
    (st : List μ × List Char) (chunk : List Char) : List μ × List Char :=
  let drained := drainBuffer parse (st.2 ++ chunk)
  (st.1 ++ drained.1, drained.2)

/-- Processing a whole sequence of data events from an initially empty
buffer, collecting every delivered message in order. -/
def processChunks {μ : Type} (parse : List Char → Option μ)
    (chunks : List (List Char)) : List μ × List Char :=
  chunks.foldl (processChunk parse) ([], [])

/-- Spec-side line decomposition: split a character stream at every
newline; the last component is the trailing (unterminated) part. -/
def splitNl : List Char → List (List Char)
  | [] => [[]]
  | c :: rest =>
    if c = '\n' then [] :: splitNl rest
    else consHead c (splitNl rest)

-- ── Basic lemmas about the splitting scan ────────────────────────────────

theorem consHead_cons (c : Char) (h : List Char) (r : List (List Char)) :
    consHead c (h :: r) = (c :: h) :: r := rfl

theorem consHead_ne_nil (c : Char) (xs : List (List Char)) : consHead c xs ≠ [] := by
  cases xs <;> simp [consHead]

theorem splitDelim_ne_nil (s : List Char) : splitDelim s ≠ [] := by
  match s with
  | [] => simp [splitDelim]
  | [c] => simp [splitDelim]
  | [c, d] => simp [splitDelim, consHead]
  | c :: d :: e :: rest =>
    rw [splitDelim]
    split
    · simp
    · exact consHead_ne_nil _ _

theorem containsDelim_cons3 (c d e : Char) (rest : List Char) :
    containsDelim (c :: d :: e :: rest) =
      (decide (c = ':' ∧ d = '/' ∧ e = '/') || containsDelim (d :: e :: rest)) := rfl

/-- A delimiter-free string splits into a single component. -/
theorem splitDelim_of_not_contains (s : List Char)
    (h : containsDelim s = false) : splitDelim s = [s] := by
  match s with
  | [] => simp [splitDelim]
  | [c] => simp [splitDelim]
  | [c, d] => simp [splitDelim, consHead]
  | c :: d :: e :: rest =>
    rw [containsDelim_cons3, Bool.or_eq_false_iff] at h
    rw [splitDelim, if_neg (by simpa using h.1)]
    rw [splitDelim_of_not_contains (d :: e :: rest) h.2]
    rfl

/-- Splitting an encoded identifier: the first cut happens exactly at the
inserted delimiter when the alias is delimiter-free. -/
theorem splitDelim_encode (a l : List Char) (ha : containsDelim a = false) :
    splitDelim (a ++ delim ++ l) = a :: splitDelim l := by
  match a with
  | [] =>
    show splitDelim (':' :: '/' :: '/' :: l) = [] :: splitDelim l
    rw [splitDelim, if_pos ⟨rfl, rfl, rfl⟩]
  | [c] =>
    show splitDelim (c :: ':' :: '/' :: '/' :: l) = [c] :: splitDelim l
    rw [splitDelim, if_neg (by simp)]
    rw [show splitDelim (':' :: '/' :: '/' :: l) = [] :: splitDelim l from by
      rw [splitDelim, if_pos ⟨rfl, rfl, rfl⟩]]
    rfl
  | [c, d] =>
    show splitDelim (c :: d :: ':' :: '/' :: '/' :: l) = [c, d] :: splitDelim l
    rw [splitDelim, if_neg (by simp)]
    rw [show splitDelim (d :: ':' :: '/' :: '/' :: l) = [d] :: splitDelim l from by
      rw [splitDelim, if_neg (by simp)]
      rw [show splitDelim (':' :: '/' :: '/' :: l) = [] :: splitDelim l from by
        rw [splitDelim, if_pos ⟨rfl, rfl, rfl⟩]]
      rfl]
    rfl
  | c :: d :: e :: rest =>
    rw [containsDelim_cons3, Bool.or_eq_false_iff] at ha
    show splitDelim (c :: d :: e :: (rest ++ delim ++ l)) = _
    rw [splitDelim, if_neg (by simpa using ha.1)]
    have ih := splitDelim_encode (d :: e :: rest) l ha.2
    simp only [List.cons_append] at ih
    rw [ih]
    rfl

/-- The round-trip split of a full encoded identifier with delimiter-free
alias and local id. -/
theorem splitDelim_encode_full (a l : List Char)
    (ha : containsDelim a = false) (hl : containsDelim l = false) :
    splitDelim (a ++ delim ++ l) = [a, l] := by
  rw [splitDelim_encode a l ha, splitDelim_of_not_contains l hl]

/-- Unfolding step: a string beginning with the delimiter is cut there. -/
theorem splitDelim_delim_cons (t : List Char) :
    splitDelim (':' :: '/' :: '/' :: t) = [] :: splitDelim t := by
  rw [splitDelim, if_pos ⟨rfl, rfl, rfl⟩]

/-- Greedy left-to-right splitting of any string of the form
`p ++ "://" ++ t` with a delimiter-free tail `t` produces at least two
components, the last being `t`. -/
theorem splitDelim_append_getLast (p t : List Char)
    (ht : containsDelim t = false) :
    (splitDelim (p ++ ':' :: '/' :: '/' :: t)).getLast? = some t ∧
      2 ≤ (splitDelim (p ++ ':' :: '/' :: '/' :: t)).length := by
  match p with
  | [] =>
    simp only [List.nil_append]
    rw [splitDelim_delim_cons, splitDelim_of_not_contains t ht]
    simp
  | [c] =>
    simp only [List.singleton_append, List.nil_append]
    rw [splitDelim, if_neg (by simp), splitDelim_delim_cons,
      splitDelim_of_not_contains t ht, consHead_cons]
    simp
  | [c, d] =>
    simp only [List.cons_append, List.singleton_append, List.nil_append]
    rw [splitDelim, if_neg (by simp)]
    rw [show splitDelim (d :: ':' :: '/' :: '/' :: t) = [d] :: splitDelim t from by
      rw [splitDelim, if_neg (by simp), splitDelim_delim_cons,
        splitDelim_of_not_contains t ht]
      rfl]
    rw [splitDelim_of_not_contains t ht, consHead_cons]
    simp
  | c :: d :: e :: rest =>
    simp only [List.cons_append]
    rw [splitDelim]
    by_cases hcd : c = ':' ∧ d = '/' ∧ e = '/'
    · rw [if_pos hcd]
      have ih := splitDelim_append_getLast rest t ht
      obtain ⟨h1, h2⟩ := ih
      match hs : splitDelim (rest ++ ':' :: '/' :: '/' :: t) with
      | [] => exact absurd hs (splitDelim_ne_nil _)
      | x :: xs =>
        rw [hs] at h1
        rw [List.getLast?_cons_cons]
        exact ⟨h1, by simp⟩
    · rw [if_neg hcd]
      have ih := splitDelim_append_getLast (d :: e :: rest) t ht
      simp only [List.cons_append] at ih
      obtain ⟨h1, h2⟩ := ih
      match hs : splitDelim (d :: e :: (rest ++ ':' :: '/' :: '/' :: t)) with
      | [] => exact absurd hs (splitDelim_ne_nil _)
      | [x] => rw [hs] at h2; simp at h2
      | x :: y :: xs =>
        rw [hs] at h1 h2
        rw [consHead_cons]
        rw [List.getLast?_cons_cons] at h1 ⊢
        exact ⟨h1, by simp⟩

/-- The `endsWith` test of the bare tools/call branch, characterised on
properly encoded names: `"://" ++ t` is a suffix of `alias ++ "://" ++ local`
exactly when `local = t`, provided alias, local and `t` are delimiter-free. -/
theorem isSuffixOf_encode (a l t : List Char)
    (ha : containsDelim a = false) (hl : containsDelim l = false)
    (ht : containsDelim t = false) :
    List.isSuffixOf (delim ++ t) (encodeId a l) = (l == t) := by
  by_cases hlt : l = t
  · subst hlt
    rw [beq_self_eq_true]
    rw [List.isSuffixOf_iff_suffix]
    simp only [encodeId, List.append_assoc]
    exact List.suffix_append a (delim ++ l)
  · rw [beq_eq_false_iff_ne.mpr hlt]
    by_contra hcon
    rw [Bool.not_eq_false, List.isSuffixOf_iff_suffix] at hcon
    obtain ⟨p, hp⟩ := hcon
    have h1 := (splitDelim_append_getLast p t ht).1
    have h2 : (splitDelim (a ++ delim ++ l)).getLast? = some l := by
      rw [splitDelim_encode_full a l ha hl]; rfl
    simp only [encodeId, delim, List.append_assoc, List.cons_append,
      List.nil_append] at hp h1 h2
    rw [hp] at h1
    rw [h1] at h2
    exact hlt (Option.some_injective _ h2).symm

-- ── Claim C1 ─────────────────────────────────────────────────────────────

/-- C1: for every alias `a` and local id `l`, neither containing the
delimiter, decoding the encoded aggregated identifier (as the
resources/read and tools/call handlers do, via `split("://")`) returns the
original pair: `decode (encode a l) = (a, l)`. -/
theorem claim1_decode_encode_roundtrip (a l : List Char)
    (ha : containsDelim a = false) (hl : containsDelim l = false) :
    decodeId (encodeId a l) = (a, some l) := by
  unfold decodeId encodeId
  rw [splitDelim_encode_full a l ha hl]

/-- Witness for C1 at a concrete alias/local pair. -/
theorem claim1_decode_encode_roundtrip_witness :
    containsDelim ['A'] = false ∧ containsDelim ['x'] = false ∧
      decodeId (encodeId ['A'] ['x']) = (['A'], some ['x']) :=
  ⟨by decide, by decide,
    claim1_decode_encode_roundtrip ['A'] ['x'] (by decide) (by decide)⟩

-- ── Claim C7 ─────────────────────────────────────────────────────────────

/-- Counterexample to C7: the resources/read handler does not fail with a
malformed-identifier error on a delimiter-free uri.  With a backend
aliased `"m"` registered and the delimiter-free raw uri `"m"`, decoding
succeeds — the whole uri is taken as the alias and the read is forwarded
with an absent path — instead of failing at all. -/
theorem claim7_counterexample :
    containsDelim ['m'] = false ∧
      readResourceHandler [['m']] ['m'] = ReadOutcome.forwarded ['m'] none := by
  constructor
  · decide
  · decide

/-- C7 (amended): a raw identifier with no delimiter is treated by
resources/read as an alias with an absent path: the read is forwarded when
a client with that alias exists and otherwise fails with an unknown-alias
error; no malformed-identifier error is raised. -/
theorem claim7_read_bare_uri (clients : List (List Char)) (uri : List Char)
    (h : containsDelim uri = false) :
    readResourceHandler clients uri =
      if clients.contains uri then ReadOutcome.forwarded uri none
      else ReadOutcome.unknownAlias uri := by
  unfold readResourceHandler
  rw [splitDelim_of_not_contains uri h]
  rfl

/-- Witness for the amended C7 at a concrete uri with no matching client. -/
theorem claim7_read_bare_uri_witness :
    containsDelim ['q'] = false ∧
      readResourceHandler [] ['q'] = ReadOutcome.unknownAlias ['q'] :=
  ⟨by decide, by
    have h := claim7_read_bare_uri [] ['q'] (by decide)
    simpa using h⟩

-- ── Claim C2 ─────────────────────────────────────────────────────────────

/-- The `allTools.filter(t => t.name.endsWith("://" + tool))` scan over a
properly encoded snapshot selects exactly the entries whose local part
equals the bare name. -/
theorem filter_endsWith_eq_localMatches
    (snapshot : List (List Char × List Char)) (t : List Char)
    (hsnap : ∀ p ∈ snapshot, containsDelim p.1 = false ∧ containsDelim p.2 = false)
    (ht : containsDelim t = false) :
    (snapshot.map (fun p => encodeId p.1 p.2)).filter
        (fun nm => List.isSuffixOf (delim ++ t) nm) =
      (localMatches snapshot t).map (fun p => encodeId p.1 p.2) := by
  rw [List.filter_map]
  unfold localMatches
  congr 1
  apply List.filter_congr
  intro p hp
  simp only [Function.comp]
  exact isSuffixOf_encode p.1 p.2 t (hsnap p hp).1 (hsnap p hp).2 ht

/-- C2: for every bare (delimiter-free) tools/call name, resolution scans
the cached tool-list snapshot for entries whose local part equals the bare
name: zero matches fail with the unknown-tool error, two or more fail with
the ambiguity error naming all colliding encoded entries, and exactly one
match routes the call to that single alias's backend. -/
theorem claim2_bare_resolution (clients : List (List Char))
    (snapshot : List (List Char × List Char)) (exp : Nat)
    (freshTools : List (List Char)) (t : List Char)
    (hsnap : ∀ p ∈ snapshot, containsDelim p.1 = false ∧ containsDelim p.2 = false)
    (ht : containsDelim t = false) :
    (localMatches snapshot t = [] →
      callToolHandler clients
          (some (exp, snapshot.map (fun p => encodeId p.1 p.2))) freshTools t =
        (CallOutcome.unknownTool t, false)) ∧
    (∀ a0, localMatches snapshot t = [(a0, t)] → clients.contains a0 = true →
      callToolHandler clients
          (some (exp, snapshot.map (fun p => encodeId p.1 p.2))) freshTools t =
        (CallOutcome.routed a0 t, false)) ∧
    (2 ≤ (localMatches snapshot t).length →
      callToolHandler clients
          (some (exp, snapshot.map (fun p => encodeId p.1 p.2))) freshTools t =
        (CallOutcome.ambiguousTool t
          ((localMatches snapshot t).map (fun p => encodeId p.1 p.2)), false)) := by
  have hform :
      callToolHandler clients
          (some (exp, snapshot.map (fun p => encodeId p.1 p.2))) freshTools t =
        (if ((localMatches snapshot t).map (fun p => encodeId p.1 p.2)).length = 1 then
          (if clients.contains
              ((splitDelim (((localMatches snapshot t).map
                (fun p => encodeId p.1 p.2)).headD [])).headD []) then
            (CallOutcome.routed
              ((splitDelim (((localMatches snapshot t).map
                (fun p => encodeId p.1 p.2)).headD [])).headD []) t, false)
          else
            (CallOutcome.unknownAlias
              ((splitDelim (((localMatches snapshot t).map
                (fun p => encodeId p.1 p.2)).headD [])).headD []), false))
        else if ((localMatches snapshot t).map (fun p => encodeId p.1 p.2)).length = 0 then
          (CallOutcome.unknownTool t, false)
        else
          (CallOutcome.ambiguousTool t
            ((localMatches snapshot t).map (fun p => encodeId p.1 p.2)), false)) := by
    have hhits := filter_endsWith_eq_localMatches snapshot t hsnap ht
    simp only [callToolHandler, splitDelim_of_not_contains t ht, List.headD_cons,
      List.getElem?_cons_succ, List.getElem?_nil, jsTruthyStr, Bool.false_eq_true,
      if_false, Option.isNone_some, hhits]
  refine ⟨?_, ?_, ?_⟩
  · intro hz
    rw [hform, hz]
    rfl
  · intro a0 hone hcl
    have hmem : (a0, t) ∈ snapshot := by
      have hin : (a0, t) ∈ localMatches snapshot t := by rw [hone]; simp
      exact List.mem_of_mem_filter hin
    have ha0 : containsDelim a0 = false := (hsnap (a0, t) hmem).1
    rw [hform, hone]
    simp only [List.map_cons, List.map_nil, List.length_cons, List.length_nil,
      List.headD_cons, if_true]
    unfold encodeId
    rw [splitDelim_encode_full a0 t ha0 ht]
    simp only [List.headD_cons]
    rw [if_pos hcl]
  · intro h2
    rw [hform]
    rw [if_neg (by rw [List.length_map]; omega),
      if_neg (by rw [List.length_map]; omega)]

/-- Witness for C2 at the spec's ambiguity example: backends `A` and `B`
both expose local tool `"p"`; the bare call fails with the ambiguity error
naming both encoded entries. -/
theorem claim2_bare_resolution_witness :
    callToolHandler [['A'], ['B']]
        (some (0, [(['A'], ['p']), (['B'], ['p'])].map (fun p => encodeId p.1 p.2)))
        [] ['p'] =
      (CallOutcome.ambiguousTool ['p']
        (([(['A'], ['p']), (['B'], ['p'])] :
            List (List Char × List Char)).map (fun p => encodeId p.1 p.2)), false) := by
  have h := (claim2_bare_resolution [['A'], ['B']] [(['A'], ['p']), (['B'], ['p'])]
    0 [] ['p'] (by decide) (by decide)).2.2
  have h2 : 2 ≤ (localMatches [(['A'], ['p']), (['B'], ['p'])] ['p']).length := by decide
  have he := h h2
  rw [he]
  have hm : localMatches [(['A'], ['p']), (['B'], ['p'])] ['p'] =
      [(['A'], ['p']), (['B'], ['p'])] := by decide
  rw [hm]

-- ── Fan-out lemmas, claims C3, C5, C6 ────────────────────────────────────

/-- A fan-out over backends that all succeed returns the concatenation of
their relabelled lists in backend order, having queried each backend once. -/
theorem fanOutLists_ok {ε : Type} (bs : List (List Char × List (List Char))) :
    fanOutLists (ε := ε) (bs.map (fun b => (b.1, Except.ok b.2))) =
      (Except.ok (bs.flatMap (fun b => b.2.map (fun i => encodeId b.1 i))),
        bs.length) := by
  induction bs with
  | nil => rfl
  | cons b rest ih =>
    simp only [List.map_cons, fanOutLists, ih, List.flatMap_cons, List.length_cons]

/-- The first failing backend aborts the fan-out with its error, after the
preceding successes and the failing backend itself have been queried;
later backends are not queried. -/
theorem fanOutLists_error {ε : Type} (pre : List (List Char × List (List Char)))
    (al : List Char) (e : ε)
    (post : List (List Char × Except ε (List (List Char)))) :
    fanOutLists (pre.map (fun b => (b.1, Except.ok b.2)) ++
        (al, Except.error e) :: post) =
      (Except.error e, pre.length + 1) := by
  induction pre with
  | nil => rfl
  | cons b rest ih =>
    simp only [List.map_cons, List.cons_append, fanOutLists, List.append_eq, ih,
      List.length_cons]

/-- Counterexample to C3: with backend `A` replying tools `["x"]` and
backend `B` failing, the tools/list fan-out loop re-throws `B`'s error
instead of returning `A`'s relabelled entries. -/
theorem claim3_counterexample :
    (fanOutLists [(['A'], Except.ok [['x']]),
        (['B'], (Except.error 0 : Except Nat (List (List Char))))]).1 =
      Except.error 0 := rfl

/-- C3 (amended): a fan-out list call tolerates no partial backend
failure — the first failing backend's error propagates out of the handler,
the preceding successes are discarded and later backends are not queried;
only when every backend succeeds does the call return the relabelled
concatenation. -/
theorem claim3_fanout_failure_propagates {ε : Type}
    (pre : List (List Char × List (List Char))) (al : List Char) (e : ε)
    (post : List (List Char × Except ε (List (List Char)))) :
    fanOutLists (pre.map (fun b => (b.1, Except.ok b.2)) ++
        (al, Except.error e) :: post) = (Except.error e, pre.length + 1) ∧
    (∀ bs : List (List Char × List (List Char)),
      fanOutLists (ε := ε) (bs.map (fun b => (b.1, Except.ok b.2))) =
        (Except.ok (bs.flatMap (fun b => b.2.map (fun i => encodeId b.1 i))),
          bs.length)) :=
  ⟨fanOutLists_error pre al e post, fanOutLists_ok⟩

/-- Counterexample to C5: if descriptor `A`'s dial fails while descriptor
`B`'s would succeed, startup aborts with `A`'s error and the session map is
empty — `B` is never dialled, so the map does not contain an entry for
each descriptor whose dial succeeds, and boot does not complete. -/
theorem claim5_counterexample :
    connectAll [(['A'], (Except.error 0 : Except Nat Unit)),
        (['B'], Except.ok ())] = ([], some 0) := rfl

/-- C5 (amended): the boot loop dials descriptors sequentially; each
successful dial registers its alias, and the first failing dial aborts
startup with that error, leaving all later descriptors undialled and
unregistered.  Only when every dial succeeds does startup complete, with
the session map holding every alias in descriptor order. -/
theorem claim5_connect_failure_aborts {ε : Type}
    (pre : List (List Char)) (al : List Char) (e : ε)
    (post : List (List Char × Except ε Unit)) :
    connectAll (pre.map (fun a => (a, Except.ok ())) ++
        (al, Except.error e) :: post) = (pre, some e) ∧
    (∀ ds : List (List Char),
      connectAll (ε := ε) (ds.map (fun a => (a, Except.ok ()))) = (ds, none)) := by
  constructor
  · induction pre with
    | nil => rfl
    | cons a rest ih =>
      simp only [List.map_cons, List.cons_append, connectAll, List.append_eq, ih]
  · intro ds
    induction ds with
    | nil => rfl
    | cons a rest ih => simp only [List.map_cons, connectAll, ih]

/-- C6: the merged tools/list result is the concatenation of each backend's
relabelled entries in descriptor insertion order — in particular, backends
`A` with tools `["x","y"]` and `B` with `["z"]` merge to exactly
`[A://x, A://y, B://z]`.  The fan-out loop is a pure function of the
descriptor-ordered backend list, so the order cannot depend on reply
timing. -/
theorem claim6_merge_concatenation :
    (∀ (alA alB : List Char) (la lb : List (List Char)),
      (fanOutLists (ε := Unit) [(alA, Except.ok la), (alB, Except.ok lb)]).1 =
        Except.ok (la.map (fun i => encodeId alA i) ++
          lb.map (fun i => encodeId alB i))) ∧
    (fanOutLists (ε := Unit)
        [(['A'], Except.ok [['x'], ['y']]), (['B'], Except.ok [['z']])]).1 =
      Except.ok [encodeId ['A'] ['x'], encodeId ['A'] ['y'],
        encodeId ['B'] ['z']] := by
  constructor
  · intro alA alB la lb
    have h := fanOutLists_ok (ε := Unit) [(alA, la), (alB, lb)]
    simp only [List.map_cons, List.map_nil, List.flatMap_cons, List.flatMap_nil,
      List.append_nil] at h
    rw [h]
  · rfl

-- ── Claim C4 ─────────────────────────────────────────────────────────────

/-- C4: cached enumeration behaviour.  A cache entry whose expiry is
strictly in the future is returned as-is with no backend queried; an
absent or expired entry triggers exactly one query per backend, and the
merged relabelled result is stored with expiry `now + ttl` and returned.
Consequently a second call strictly before the stored expiry queries no
backend, while a call at or after it fans out afresh. -/
theorem claim4_cached_enumeration {ε : Type} (now ttl exp : Nat)
    (v : List (List Char))
    (backends : List (List Char × Except ε (List (List Char))))
    (bs : List (List Char × List (List Char))) :
    (now < exp →
      listToolsHandler now ttl (some (exp, v)) backends =
        (Except.ok v, some (exp, v), 0)) ∧
    (exp ≤ now →
      listToolsHandler (ε := ε) now ttl (some (exp, v))
          (bs.map (fun b => (b.1, Except.ok b.2))) =
        (Except.ok (bs.flatMap (fun b => b.2.map (fun i => encodeId b.1 i))),
          some (now + ttl, bs.flatMap (fun b => b.2.map (fun i => encodeId b.1 i))),
          bs.length)) ∧
    (listToolsHandler (ε := ε) now ttl none (bs.map (fun b => (b.1, Except.ok b.2))) =
      (Except.ok (bs.flatMap (fun b => b.2.map (fun i => encodeId b.1 i))),
        some (now + ttl, bs.flatMap (fun b => b.2.map (fun i => encodeId b.1 i))),
        bs.length)) ∧
    (∀ t1, t1 < now + ttl →
      listToolsHandler t1 ttl
          (listToolsHandler (ε := ε) now ttl none
            (bs.map (fun b => (b.1, Except.ok b.2)))).2.1
          backends =
        (Except.ok (bs.flatMap (fun b => b.2.map (fun i => encodeId b.1 i))),
          some (now + ttl, bs.flatMap (fun b => b.2.map (fun i => encodeId b.1 i))),
          0)) ∧
    (∀ t1, now + ttl ≤ t1 →
      listToolsHandler (ε := ε) t1 ttl
          (listToolsHandler (ε := ε) now ttl none
            (bs.map (fun b => (b.1, Except.ok b.2)))).2.1
          (bs.map (fun b => (b.1, Except.ok b.2))) =
        (Except.ok (bs.flatMap (fun b => b.2.map (fun i => encodeId b.1 i))),
          some (t1 + ttl, bs.flatMap (fun b => b.2.map (fun i => encodeId b.1 i))),
          bs.length)) := by
  have hmiss : ∀ t0 : Nat,
      listToolsHandler (ε := ε) t0 ttl none
          (bs.map (fun b => (b.1, Except.ok b.2))) =
        (Except.ok (bs.flatMap (fun b => b.2.map (fun i => encodeId b.1 i))),
          some (t0 + ttl, bs.flatMap (fun b => b.2.map (fun i => encodeId b.1 i))),
          bs.length) := by
    intro t0
    unfold listToolsHandler
    rw [fanOutLists_ok]
  have hhit : ∀ (t0 ex : Nat) (w : List (List Char)), t0 < ex →
      listToolsHandler (ε := ε) t0 ttl (some (ex, w)) backends =
        (Except.ok w, some (ex, w), 0) := by
    intro t0 ex w hlt
    simp only [listToolsHandler]
    rw [if_pos (show ex > t0 from hlt)]
  refine ⟨hhit now exp v, ?_, hmiss now, ?_, ?_⟩
  · intro hle
    simp only [listToolsHandler]
    rw [if_neg (show ¬ exp > now by omega), fanOutLists_ok]
  · intro t1 h1
    rw [hmiss now]
    exact hhit t1 (now + ttl) _ h1
  · intro t1 h1
    rw [hmiss now]
    simp only [listToolsHandler]
    rw [if_neg (show ¬ now + ttl > t1 by omega), fanOutLists_ok]

/-- Witness for C4: with TTL 10, a miss at time 0 stores expiry 10 and
queries the single backend; the hit branch is exercised at time 3 against
the stored entry and the post-expiry branch at time 10. -/
theorem claim4_cached_enumeration_witness :
    ((3 : Nat) < 10 ∧ (10 : Nat) ≤ 10 ∧ (0 : Nat) + 10 = 10) ∧
    listToolsHandler (ε := Unit) 0 10 none [(['A'], Except.ok [['x']])] =
      (Except.ok [encodeId ['A'] ['x']], some (10, [encodeId ['A'] ['x']]), 1) ∧
    listToolsHandler (ε := Unit) 3 10 (some (10, [encodeId ['A'] ['x']]))
        [(['A'], Except.ok [['x']])] =
      (Except.ok [encodeId ['A'] ['x']], some (10, [encodeId ['A'] ['x']]), 0) ∧
    listToolsHandler (ε := Unit) 10 10 (some (10, [encodeId ['A'] ['x']]))
        [(['A'], Except.ok [['x']])] =
      (Except.ok [encodeId ['A'] ['x']], some (20, [encodeId ['A'] ['x']]), 1) := by
  refine ⟨by omega, ?_, ?_, ?_⟩
  · have h := (claim4_cached_enumeration (ε := Unit) 0 10 0 []
      [(['A'], Except.ok [['x']])] [(['A'], [['x']])]).2.2.1
    simpa using h
  · have h := (claim4_cached_enumeration (ε := Unit) 3 10 10 [encodeId ['A'] ['x']]
      [(['A'], Except.ok [['x']])] [(['A'], [['x']])]).1 (by omega)
    simpa using h
  · have h := (claim4_cached_enumeration (ε := Unit) 10 10 10 [encodeId ['A'] ['x']]
      [(['A'], Except.ok [['x']])] [(['A'], [['x']])]).2.1 (by omega)
    simpa using h

-- ── Claim C10 ────────────────────────────────────────────────────────────

/-- C10: bare tools/call resolution reads `this.toolsCache?.value` with no
TTL check.  Whenever a cache entry exists — even one whose expiry `exp` is
already past (`exp ≤ now`) — resolution scans the stored snapshot, performs
no fresh enumeration, and its outcome is independent of the entry's expiry
and of what a fresh enumeration would return; the fallback enumeration runs
exactly when no cache entry exists at all. -/
theorem claim10_stale_bare_resolution (clients freshTools freshTools' : List (List Char))
    (now exp exp' : Nat) (v : List (List Char)) (name : List Char)
    (hbare : containsDelim name = false) (hexp : exp ≤ now) :
    (callToolHandler clients (some (exp, v)) freshTools name).2 = false ∧
    (callToolHandler clients (some (exp, v)) freshTools name =
      callToolHandler clients (some (exp', v)) freshTools' name) ∧
    (callToolHandler clients none freshTools name).2 = true := by
  refine ⟨?_, ?_, ?_⟩
  · simp only [callToolHandler, Option.isNone_some]
    split_ifs <;> rfl
  · simp only [callToolHandler, Option.isNone_some]
  · simp only [callToolHandler, splitDelim_of_not_contains name hbare,
      List.getElem?_cons_succ, List.getElem?_nil, jsTruthyStr, Option.isNone_none,
      Bool.false_eq_true, if_false]
    split_ifs <;> rfl

/-- Witness for C10: a long-expired entry (expiry 0, current time 5) is
still the snapshot scanned by a bare call, with no fallback enumeration. -/
theorem claim10_stale_bare_resolution_witness :
    (0 : Nat) ≤ 5 ∧ containsDelim ['p'] = false ∧
      ((callToolHandler [] (some (0, [])) [] ['p']).2 = false ∧
        (callToolHandler [] (some (0, [])) [] ['p'] =
          callToolHandler [] (some (99, [])) [['r']] ['p']) ∧
        (callToolHandler [] none [] ['p']).2 = true) :=
  ⟨by omega, by decide,
    claim10_stale_bare_resolution [] [] [['r']] 5 0 99 [] ['p']
      (by decide) (by omega)⟩

-- ── Claim C9 ─────────────────────────────────────────────────────────────

/-- Counterexample to C9: with two backends `A` and `B`, the sequential
dispatch loops of the cached server await `A`'s sub-operation before
issuing `B`'s, so it is not the case that all sub-operations are issued
before any is awaited. -/
theorem claim9_counterexample :
    issuesFirst (seqDispatchTrace [['A'], ['B']]) = false := by decide

/-- C9 (amended): the fan-out enumeration and boot-time dial loops of the
cached server are strictly sequential — each sub-operation is issued and
awaited before the next is issued — so all sub-operations precede every
await only in the degenerate case of at most one backend. -/
theorem claim9_sequential_dispatch (aliases : List (List Char)) :
    issuesFirst (seqDispatchTrace aliases) = decide (aliases.length ≤ 1) := by
  match aliases with
  | [] => rfl
  | [a] => rfl
  | a :: b :: rest =>
    simp only [seqDispatchTrace, List.flatMap_cons, List.cons_append,
      List.nil_append, issuesFirst, List.all_cons, isAwaitedEv,
      Bool.false_and, List.length_cons]
    simp [List.append_eq, List.map_cons, List.flatten_cons, List.all_cons,
      isAwaitedEv]

-- ── Stdio framing lemmas (claim C8) ──────────────────────────────────────

/-- The default of `getLastD` on a cons is irrelevant. -/
theorem getLastD_cons_ne_nil {α : Type} (a : α) (l : List α) (d d' : α)
    (h : l ≠ []) : (a :: l).getLastD d = l.getLastD d' := by
  cases l with
  | nil => exact absurd rfl h
  | cons b bs => rfl

theorem splitNl_ne_nil (s : List Char) : splitNl s ≠ [] := by
  cases s with
  | nil => simp [splitNl]
  | cons c rest =>
    rw [splitNl]
    split
    · simp
    · exact consHead_ne_nil _ _

/-- A newline-free stream is a single (trailing) component. -/
theorem splitNl_of_no_newline (s : List Char)
    (h : s.any (fun c => c == '\n') = false) : splitNl s = [s] := by
  induction s with
  | nil => rfl
  | cons c rest ih =>
    simp only [List.any_cons, Bool.or_eq_false_iff, beq_eq_false_iff_ne] at h
    rw [splitNl, if_neg h.1, ih h.2]
    rfl

/-- Splitting at the first newline after a newline-free prefix. -/
theorem splitNl_append_newline (s r : List Char)
    (h : s.any (fun c => c == '\n') = false) :
    splitNl (s ++ '\n' :: r) = s :: splitNl r := by
  induction s with
  | nil =>
    simp only [List.nil_append]
    rw [splitNl, if_pos rfl]
  | cons c rest ih =>
    simp only [List.any_cons, Bool.or_eq_false_iff, beq_eq_false_iff_ne] at h
    simp only [List.cons_append]
    rw [splitNl, if_neg h.1, ih h.2]
    rfl

/-- Unfolding equation for `splitNl` on a cons cell. -/
theorem splitNl_cons (c : Char) (rest : List Char) :
    splitNl (c :: rest) =
      if c = '\n' then [] :: splitNl rest else consHead c (splitNl rest) := rfl

/-- The trailing component of a split stream contains no newline. -/
theorem splitNl_getLastD_no_newline (s : List Char) :
    ((splitNl s).getLastD []).any (fun c => c == '\n') = false := by
  induction s with
  | nil => rfl
  | cons c rest ih =>
    rw [splitNl_cons]
    by_cases hc : c = '\n'
    · rw [if_pos hc, getLastD_cons_ne_nil [] (splitNl rest) [] []
        (splitNl_ne_nil rest)]
      exact ih
    · rw [if_neg hc]
      match hs : splitNl rest with
      | [] => exact absurd hs (splitNl_ne_nil rest)
      | h :: r =>
        rw [consHead_cons]
        match r with
        | [] =>
          rw [hs] at ih
          simp only [List.getLastD_eq_getLast?, List.getLast?_singleton,
            Option.getD_some] at ih ⊢
          simp only [List.any_cons, Bool.or_eq_false_iff, beq_eq_false_iff_ne]
          exact ⟨hc, ih⟩
        | x :: xs =>
          rw [getLastD_cons_ne_nil (c :: h) (x :: xs) [] [] (by simp)]
          rw [hs, getLastD_cons_ne_nil h (x :: xs) [] [] (by simp)] at ih
          exact ih

/-- Splitting a concatenation: the complete lines of the first part, then
the split of its trailing part prepended to the second part. -/
theorem splitNl_append (x y : List Char) :
    splitNl (x ++ y) =
      (splitNl x).dropLast ++ splitNl ((splitNl x).getLastD [] ++ y) := by
  induction x with
  | nil => rfl
  | cons c rest ih =>
    simp only [List.cons_append]
    by_cases hc : c = '\n'
    · rw [splitNl_cons c (rest ++ y), splitNl_cons c rest, if_pos hc, if_pos hc]
      rw [List.dropLast_cons_of_ne_nil (splitNl_ne_nil rest), List.cons_append]
      rw [getLastD_cons_ne_nil [] (splitNl rest) [] [] (splitNl_ne_nil rest)]
      rw [ih]
    · rw [splitNl_cons c (rest ++ y), splitNl_cons c rest, if_neg hc, if_neg hc]
      match hs : splitNl rest with
      | [] => exact absurd hs (splitNl_ne_nil rest)
      | h :: r =>
        rw [hs] at ih
        rw [consHead_cons]
        match r with
        | [] =>
          simp only [List.dropLast_single, List.nil_append,
            List.getLastD_eq_getLast?, List.getLast?_singleton,
            Option.getD_some] at ih ⊢
          rw [ih, List.cons_append, splitNl_cons c (h ++ y), if_neg hc]
        | x1 :: xs =>
          rw [List.dropLast_cons_of_ne_nil (l := x1 :: xs) (by simp),
            getLastD_cons_ne_nil h (x1 :: xs) [] [] (by simp)] at ih
          rw [List.dropLast_cons_of_ne_nil (l := x1 :: xs) (by simp),
            getLastD_cons_ne_nil (c :: h) (x1 :: xs) [] [] (by simp), ih,
            List.cons_append, consHead_cons, List.cons_append]

/-- The drain loop delivers exactly the per-line results of the complete
(newline-terminated) lines of the buffer, in order, and leaves the
trailing newline-free part as the new buffer. -/
theorem drainBuffer_eq {μ : Type} (parse : List Char → Option μ) (s : List Char) :
    drainBuffer parse s =
      ((splitNl s).dropLast.filterMap (handleLine parse),
        (splitNl s).getLastD []) := by
  rw [drainBuffer]
  by_cases h : s.any (fun c => c == '\n')
  · rw [dif_pos h]
    have hne : s.dropWhile (fun c => !(c == '\n')) ≠ [] := by
      rw [Ne, List.dropWhile_eq_nil_iff]
      intro hall
      rw [List.any_eq_true] at h
      obtain ⟨ch, hcm, he⟩ := h
      have h2 := hall ch hcm
      simp at he h2
      exact h2 he
    have hhead := List.head_dropWhile_not (fun c => !(c == '\n')) s hne
    simp only [Bool.not_eq_false', beq_iff_eq] at hhead
    have hsplit : s.takeWhile (fun c => !(c == '\n')) ++
        '\n' :: ((s.dropWhile (fun c => !(c == '\n'))).drop 1) = s := by
      rw [List.drop_one]
      conv_rhs => rw [← List.takeWhile_append_dropWhile
        (p := fun c => !(c == '\n')) (l := s)]
      congr 1
      have hct := List.head_cons_tail _ hne
      rw [hhead] at hct
      exact hct
    have hL : (s.takeWhile (fun c => !(c == '\n'))).any
        (fun c => c == '\n') = false := by
      rw [List.any_eq_false]
      intro x hx
      have hp := List.mem_takeWhile_imp hx
      simp at hp ⊢
      exact hp
    have hrec := drainBuffer_eq parse ((s.dropWhile (fun c => !(c == '\n'))).drop 1)
    have hsplitNl : splitNl s =
        s.takeWhile (fun c => !(c == '\n')) ::
          splitNl ((s.dropWhile (fun c => !(c == '\n'))).drop 1) := by
      conv_lhs => rw [← hsplit]
      exact splitNl_append_newline _ _ hL
    rw [hsplitNl, List.dropLast_cons_of_ne_nil (splitNl_ne_nil _),
      List.filterMap_cons,
      getLastD_cons_ne_nil _ _ [] [] (splitNl_ne_nil _)]
    rw [List.drop_one] at hrec
    cases hL2 : handleLine parse (s.takeWhile (fun c => !(c == '\n'))) <;>
      simp [hrec, hL2, List.getLastD_eq_getLast?]
  · rw [dif_neg h]
    rw [splitNl_of_no_newline s (Bool.eq_false_iff.mpr h)]
    simp [List.getLastD_eq_getLast?]
termination_by s.length
decreasing_by
  have h2 : (s.dropWhile (fun c => !(c == '\n'))).length ≤ s.length :=
    (List.dropWhile_sublist _).length_le
  have h3 : 0 < (s.dropWhile (fun c => !(c == '\n'))).length :=
    List.length_pos.mpr hne
  simp only [List.length_drop]
  omega

-- ── Claim C8 ─────────────────────────────────────────────────────────────

/-- C8: for every sequence of stdout chunks, the inbound framing delivers
exactly the per-line parse results of the maximal newline-terminated lines
of the concatenated stream, in order — lines failing to parse are silently
discarded — and the trailing unterminated part stays buffered.  The result
depends only on the concatenation, never on the chunk boundaries, so
interleaved non-JSON text cannot corrupt the framing of surrounding
well-formed lines. -/
theorem claim8_line_framing {μ : Type} (parse : List Char → Option μ)
    (chunks : List (List Char)) :
    processChunks parse chunks =
      ((splitNl chunks.flatten).dropLast.filterMap (handleLine parse),
        (splitNl chunks.flatten).getLastD []) := by
  have key : ∀ (cs : List (List Char)) (acc : List μ) (buf : List Char),
      buf.any (fun c => c == '\n') = false →
      cs.foldl (processChunk parse) (acc, buf) =
        (acc ++ (splitNl (buf ++ cs.flatten)).dropLast.filterMap (handleLine parse),
          (splitNl (buf ++ cs.flatten)).getLastD []) := by
    intro cs
    induction cs with
    | nil =>
      intro acc buf hbuf
      simp only [List.foldl_nil, List.flatten_nil, List.append_nil]
      rw [splitNl_of_no_newline buf hbuf]
      simp
    | cons c cs ih =>
      intro acc buf hbuf
      simp only [List.foldl_cons, List.flatten_cons]
      rw [show processChunk parse (acc, buf) c =
          (acc ++ (splitNl (buf ++ c)).dropLast.filterMap (handleLine parse),
            (splitNl (buf ++ c)).getLastD []) from by
        simp [processChunk, drainBuffer_eq]]
      rw [ih _ _ (splitNl_getLastD_no_newline (buf ++ c))]
      rw [show buf ++ (c ++ cs.flatten) = (buf ++ c) ++ cs.flatten from by
        simp [List.append_assoc]]
      rw [splitNl_append (buf ++ c) cs.flatten]
      rw [List.dropLast_append_of_ne_nil _ (splitNl_ne_nil _),
        List.filterMap_append, List.append_assoc]
      simp [List.getLastD_eq_getLast?,
        List.getLast?_append_of_ne_nil _ (splitNl_ne_nil _)]
  have h := key chunks [] [] rfl
  simpa [processChunks] using h
